import Mathlib

/-!
Verification development for the ciencia-mx acquisition pipeline.

The definitions below are a shallow embedding of the two core stages of the
repository:

* `src/extract_text.py` — text normalization (`normalize_text`), quality
  metrics (`quality_metrics`), the OCR gate (`should_apply_ocr`) and the
  per-document two-pass extraction decision (`processDocument`, embedding the
  body of `main`).
* `src/resolve_fetch.py` — identifier resolution (`normalize_identifier`,
  `find_urls_from_xml`), the streaming download with byte ceiling
  (`download_stream`), the tenacity retry wrapper (`tenacityRetry`) and the
  per-record candidate loop with intra-run deduplication (`processUrls`,
  `processRecord`, `runRecords`, embedding the body of `main`).

Python strings are modelled as `List Char` (sequences of Unicode scalar
values).  Python floats are modelled as exact rationals (`ℚ`) with
round-half-even, which is Python's rounding mode; none of the proved claims
depends on binary floating-point rounding error.  Unicode character data
(canonical decompositions, combining classes, primary composites) is
restricted to the characters exercised in this development; the NFC algorithm
itself (decompose, canonical reorder, canonical compose per UAX #15) is
implemented in full.
-/

namespace CienciaMX

/-! ## Unicode NFC (unicodedata.normalize("NFC", s)) -/

/-- Canonical combining class.  Unicode data restricted to the characters
exercised here: U+0301 COMBINING ACUTE ACCENT has class 230; every other
character appearing in this development is a starter (class 0). -/
def cccOf (c : Char) : Nat := if c = '́' then 230 else 0

/-- Canonical decomposition, restricted to the characters exercised here:
U+00E1 (á) decomposes to `a` followed by U+0301. -/
def canonDecomp (c : Char) : List Char := if c = 'á' then ['a', '́'] else [c]

/-- Primary composite lookup, restricted to the pairs exercised here:
`a` + U+0301 composes to U+00E1 (á). -/
def composePair (a b : Char) : Option Char :=
  if a = 'a' && b = '́' then some 'á' else none

/-- One bubble pass of the canonical ordering algorithm: exchange adjacent
characters when the first has a higher combining class than the second and
the second is a non-starter (UAX #15 canonical ordering). -/
def reorderGo (prev : Char) : List Char → List Char
  | [] => [prev]
  | c :: rest =>
    if cccOf c ≠ 0 && decide (cccOf prev > cccOf c) then c :: reorderGo prev rest
    else prev :: reorderGo c rest

/-- One full bubble pass over the list. -/
def reorderOnce : List Char → List Char
  | [] => []
  | c :: rest => reorderGo c rest

/-- Canonical ordering: iterate bubble passes list-length many times. -/
def canonOrder (l : List Char) : List Char := reorderOnce^[l.length] l

/-- Canonical composition: `st` is the current (possibly already composed)
starter, `pending` holds the combining marks seen since `st`, most recent
first.  A mark is blocked when the most recent pending mark has a combining
class at least as large as its own. -/
def composeGo (st : Char) (pending : List Char) : List Char → List Char
  | [] => st :: pending.reverse
  | c :: rest =>
    if cccOf c = 0 then
      match (if pending.isEmpty then composePair st c else none) with
      | some m => composeGo m [] rest
      | none => st :: pending.reverse ++ composeGo c [] rest
    else
      if (pending.headD c |> cccOf) ≥ cccOf c ∧ ¬ pending.isEmpty then
        composeGo st (c :: pending) rest
      else
        match composePair st c with
        | some m => composeGo m pending rest
        | none => composeGo st (c :: pending) rest

/-- Canonical composition over a canonically ordered list: characters before
the first starter pass through unchanged. -/
def nfcCompose : List Char → List Char
  | [] => []
  | c :: rest => if cccOf c = 0 then composeGo c [] rest else c :: nfcCompose rest

/-- NFC: canonical decomposition, canonical ordering, canonical composition. -/
def nfc (l : List Char) : List Char := nfcCompose (canonOrder (l.flatMap canonDecomp))

/-! ## normalize_text (extract_text.py lines 106–117) -/

/-- First replacement `s.replace("\r\n", "\n")`: a left-to-right,
non-overlapping scan, exactly as Python's `str.replace`. -/
def replaceCRLF : List Char → List Char
  | '\r' :: '\n' :: rest => '\n' :: replaceCRLF rest
  | c :: rest => c :: replaceCRLF rest
  | [] => []

/-- Second replacement `s.replace("\r", "\n")`. -/
def crToNl (c : Char) : Char := if c = '\r' then '\n' else c

/-- Line-ending unification: `s.replace("\r\n", "\n").replace("\r", "\n")`. -/
def unifyEol (l : List Char) : List Char := (replaceCRLF l).map crToNl

/-- Characters kept by `re.sub(r"[^\x09\x0A\x20-\x7E\u0080-￿]", "", s)`:
tab, newline, printable ASCII, and the BMP range U+0080–U+FFFF.  Note that
other control characters and astral-plane characters are removed. -/
def pyKeepChar (c : Char) : Bool :=
  c = '\t' || c = '\n' || (0x20 ≤ c.toNat && c.toNat ≤ 0x7E) ||
    (0x80 ≤ c.toNat && c.toNat ≤ 0xFFFF)

/-- Control-character strip. -/
def stripControls (l : List Char) : List Char := l.filter pyKeepChar

/-- The newline predicate for `re.sub(r"\n{3,}", "\n\n", s)`. -/
def isNl (c : Char) : Bool := c = '\n'

/-- The space-or-tab predicate for `re.sub(r"[ \t]{3,}", "  ", s)`. -/
def isSpTab (c : Char) : Bool := c = ' ' || c = '\t'

/-- Replacement of maximal runs: `buf` accumulates the current run of
characters satisfying `p`; when the run ends (at a non-`p` character or at
the end of the string) it is emitted verbatim if shorter than 3 and replaced
by `rep` otherwise.  This is exactly the behaviour of `re.sub` with pattern
`X{3,}` over maximal runs, since the regex engine matches greedily. -/
def collapseEmit (rep buf : List Char) : List Char := if 3 ≤ buf.length then rep else buf

/-- Worker for `collapseRuns`. -/
def goCollapse (p : Char → Bool) (rep : List Char) (buf : List Char) :
    List Char → List Char
  | [] => collapseEmit rep buf
  | c :: rest =>
    if p c then goCollapse p rep (buf ++ [c]) rest
    else collapseEmit rep buf ++ c :: goCollapse p rep [] rest

/-- Collapse every maximal run of ≥ 3 characters satisfying `p` into `rep`. -/
def collapseRuns (p : Char → Bool) (rep : List Char) (l : List Char) : List Char :=
  goCollapse p rep [] l

/-- Whitespace per Python's `str.strip()` (the `str.isspace` character set). -/
def pyIsSpace (c : Char) : Bool :=
  c = ' ' || c = '\t' || c = '\n' || c = '\r' || c.toNat = 0x0B || c.toNat = 0x0C ||
  (0x1C ≤ c.toNat && c.toNat ≤ 0x1F) || c.toNat = 0x85 || c.toNat = 0xA0 ||
  c.toNat = 0x1680 || (0x2000 ≤ c.toNat && c.toNat ≤ 0x200A) ||
  c.toNat = 0x2028 || c.toNat = 0x2029 || c.toNat = 0x202F ||
  c.toNat = 0x205F || c.toNat = 0x3000

/-- Python `s.strip()`: drop leading and trailing whitespace. -/
def pyStrip (l : List Char) : List Char :=
  ((l.dropWhile pyIsSpace).reverse.dropWhile pyIsSpace).reverse

/-- Embedding of `normalize_text` (extract_text.py lines 106–117): NFC, unify
line endings, strip non-printable controls except tab and newline, collapse
3+ newlines to 2, collapse 3+ spaces/tabs to 2 spaces, strip surrounding
whitespace. -/
def normalize_text (s : List Char) : List Char :=
  pyStrip (collapseRuns isSpTab [' ', ' ']
    (collapseRuns isNl ['\n', '\n']
      (stripControls (unifyEol (nfc s)))))

/-! ## quality_metrics (extract_text.py lines 120–133) -/

/-- Alphabetic characters per `str.isalpha`, with the Unicode alphabetic
table restricted to the scripts exercised in this development: ASCII letters
and Latin-1 letters (U+00C0–U+00FF except × and ÷). -/
def pyIsAlpha (c : Char) : Bool :=
  ('A' ≤ c && c ≤ 'Z') || ('a' ≤ c && c ≤ 'z') ||
    (0xC0 ≤ c.toNat && c.toNat ≤ 0xFF && c.toNat ≠ 0xD7 && c.toNat ≠ 0xF7)

/-- Word characters for the token regex `\b\w+\b`: alphanumerics and
underscore. -/
def pyIsWordChar (c : Char) : Bool :=
  pyIsAlpha c || ('0' ≤ c && c ≤ '9') || c = '_'

/-- Counter of maximal runs of word characters (`len(re.findall(r"\b\w+\b",
text))`): `inWord` records whether the previous character was a word
character. -/
def countTokensGo (inWord : Bool) : List Char → Nat
  | [] => 0
  | c :: rest =>
    if pyIsWordChar c then
      (if inWord then 0 else 1) + countTokensGo true rest
    else countTokensGo false rest

/-- Number of word-boundary tokens in a text. -/
def countTokens (l : List Char) : Nat := countTokensGo false l

/-- Round half to even (Python's `round`) at the integers. -/
def roundHalfEven (x : ℚ) : ℤ :=
  let f := ⌊x⌋
  let r := x - f
  if r < 1/2 then f
  else if r > 1/2 then f + 1
  else if f % 2 = 0 then f else f + 1

/-- Python `round(x, d)` modelled exactly over the rationals. -/
def pyRound (d : Nat) (x : ℚ) : ℚ := (roundHalfEven (x * 10 ^ d) : ℚ) / 10 ^ d

/-- QualityMetrics: the dictionary produced by `quality_metrics`.  Note that
`alphaRatio` is the stored, 4-decimal-rounded value, while `score` is
computed from the unrounded ratio, exactly as in the source. -/
structure QMetrics where
  nChars : Nat
  tokens : Nat
  alphaRatio : ℚ
  score : ℚ
deriving DecidableEq

/-- Embedding of `quality_metrics` (extract_text.py lines 120–133). -/
def quality_metrics (text : List Char) : QMetrics :=
  let nChars := text.length
  let letters := (text.filter pyIsAlpha).length
  let alphaRaw : ℚ := if nChars = 0 then 0 else (letters : ℚ) / (nChars : ℚ)
  let tokens := countTokens text
  let score : ℚ := min 1 (pyRound 3 ((6/10 : ℚ) * alphaRaw + (4/10 : ℚ) * min 1 ((tokens : ℚ) / 500)))
  ⟨nChars, tokens, pyRound 4 alphaRaw, score⟩

/-! ## OCR gate and the two-pass extraction decision
(extract_text.py lines 171–174 and 293–317) -/

/-- Embedding of `should_apply_ocr`: Pass 2 is triggered when the token count
is below the configured floor or the alpha ratio is below its floor. -/
def should_apply_ocr (qm : QMetrics) (minTokens : Nat) (minAlpha : ℚ) : Bool :=
  decide (qm.tokens < minTokens) || decide (qm.alphaRatio < minAlpha)

/-- Result of processing one staged binary: the adopted normalized text and
metrics, whether Pass 2 was invoked at all, whether its result was adopted,
and the recorded OCR strategy. -/
structure ExtractOutcome where
  textNorm : List Char
  qm : QMetrics
  ocrInvoked : Bool
  ocrApplied : Bool
  ocrStrategy : List Char
deriving DecidableEq

/-- Embedding of the per-document body of `main` in extract_text.py (lines
293–317).  `text1` is the raw text the extraction service returns without
OCR; `text2` is the raw text it would return with OCR enabled.  Pass 2 runs
only when the quality gate fires, and its result is adopted only when it has
strictly more tokens or a strictly higher score. -/
def processDocument (minTokens : Nat) (minAlpha : ℚ) (text1 text2 : List Char) :
    ExtractOutcome :=
  let tn := normalize_text text1
  let qm := quality_metrics tn
  if should_apply_ocr qm minTokens minAlpha then
    let tn2 := normalize_text text2
    let qm2 := quality_metrics tn2
    if decide (qm2.tokens > qm.tokens) || decide (qm2.score > qm.score) then
      ⟨tn2, qm2, true, true, "ocr_and_text".toList⟩
    else ⟨tn, qm, true, false, "no_ocr".toList⟩
  else ⟨tn, qm, false, false, "no_ocr".toList⟩

/-! ## Candidate resolution (resolve_fetch.py lines 73–115)

The XML parsing itself (lxml, the `dc:identifier` xpath) is I/O plumbing; a
metadata record is modelled as the list of its `dc:identifier` text
contents, each a `List Char`. -/

/-- Python `pat in s` is `containsSub pat.toList s.toList`; `s.startswith
pat` is `startsWithChars pat.toList s.toList`. -/
def startsWithChars : List Char → List Char → Bool
  | [], _ => true
  | _ :: _, [] => false
  | p :: ps, c :: cs => p = c && startsWithChars ps cs

/-- Substring containment, Python's `pat in s`. -/
def containsSub (pat : List Char) : List Char → Bool
  | [] => startsWithChars pat []
  | c :: rest => startsWithChars pat (c :: rest) || containsSub pat rest

/-- Python `s.endswith(pat)`. -/
def endsWithChars (pat l : List Char) : Bool :=
  startsWithChars pat.reverse l.reverse

/-- Python `s.lower()`, adequate for the ASCII patterns matched here. -/
def lowerChars (l : List Char) : List Char := l.map Char.toLower

/-- Python `t.split(":", 1)[1]` for a string containing a colon: everything
after the first colon. -/
def afterFirstColon : List Char → List Char
  | [] => []
  | c :: rest => if c = ':' then rest else afterFirstColon rest

/-- Embedding of `normalize_identifier` (resolve_fetch.py lines 73–78): strip
the identifier and rewrite a `doi:` prefix to its `https://doi.org/` form. -/
def normalize_identifier (t : List Char) : List Char :=
  let t := pyStrip t
  if startsWithChars "doi:".toList (lowerChars t) then
    "https://doi.org/".toList ++ pyStrip (afterFirstColon t)
  else t

/-- An identifier text qualifies as a candidate (resolve_fetch.py lines
92–96): absolute http(s) URL, a string containing `doi.org`, or a
`doi:`-prefixed token. -/
def qualifiesUrl (t : List Char) : Bool :=
  startsWithChars "http://".toList t || startsWithChars "https://".toList t ||
    containsSub "doi.org".toList (lowerChars t) ||
    startsWithChars "doi:".toList (lowerChars t)

/-- The priority key of resolve_fetch.py lines 100–106 is the Boolean triple
`(doi.org not in low, handle not in low and hdl.handle.net not in low, not
low.endswith(".pdf"))` compared lexicographically with `False < True`; this
encodes it as a rank in `0..7` (most preferred first). -/
def priRank (u : List Char) : Nat :=
  let low := lowerChars u
  (if containsSub "doi.org".toList low then 0 else 4) +
    (if containsSub "handle".toList low || containsSub "hdl.handle.net".toList low
      then 0 else 2) +
    (if endsWithChars ".pdf".toList low then 0 else 1)

/-- CPython's `sorted` is a stable sort; for a key function into the finite
order `0..7` its result is exactly the concatenation of the key's fibers in
key order, each fiber in original relative order. -/
def pySortedByRank (l : List (List Char)) : List (List Char) :=
  (List.range 8).flatMap fun k => l.filter fun u => priRank u = k

/-- Duplicate removal preserving first occurrence (resolve_fetch.py lines
109–114), with `seen` the accumulator set. -/
def dedupFirstAux (seen : List (List Char)) : List (List Char) → List (List Char)
  | [] => []
  | u :: rest =>
    if u ∈ seen then dedupFirstAux seen rest
    else u :: dedupFirstAux (u :: seen) rest

/-- Embedding of `find_urls_from_xml` (resolve_fetch.py lines 81–115) on the
record's identifier texts: strip, keep the qualifying non-empty ones,
normalize `doi:` prefixes, stable-sort by priority, deduplicate keeping the
first occurrence. -/
def find_urls_from_xml (ids : List (List Char)) : List (List Char) :=
  let urls := ((ids.map pyStrip).filter fun t => !t.isEmpty && qualifiesUrl t).map
    normalize_identifier
  dedupFirstAux [] (pySortedByRank urls)

/-! ## Streaming download with byte ceiling (resolve_fetch.py lines 244–279)

A response body is modelled as the list of chunks `iter_content` yields,
each chunk a list of bytes.  The model records the file size after every
write (`fileSizes`), whether the file still exists at the end (`finalFile`),
and the outcome: `some total` for a completed download, `none` for the
`RuntimeError` raised when the cumulative size exceeds `max_bytes` (in which
case `resp.close()` and `path.unlink()` have run first). -/

structure DLResult where
  fileSizes : List Nat
  finalFile : Option Nat
  outcome : Option Nat
deriving DecidableEq

/-- Worker for `download_stream`: `total` is the byte counter, `size` the
bytes currently in the file, `trace` the file sizes observed so far. -/
def dlGo (maxBytes : Nat) (total size : Nat) (trace : List Nat) :
    List (List Nat) → DLResult
  | [] => ⟨trace, some size, some total⟩
  | c :: rest =>
    if c.length = 0 then ⟨trace, some size, some total⟩
    else if total + c.length > maxBytes then ⟨trace, none, none⟩
    else dlGo maxBytes (total + c.length) (size + c.length)
      (trace ++ [size + c.length]) rest

/-- Embedding of `download_stream` (resolve_fetch.py lines 244–279): the file
is created empty, then chunks are counted, checked against the ceiling, and
only then written; on a violation the partial file is deleted before the
failure is raised. -/
def download_stream (maxBytes : Nat) (chunks : List (List Nat)) : DLResult :=
  dlGo maxBytes 0 0 [0] chunks

/-- Bytes of the response the streaming loop would consume absent any
ceiling: chunk lengths up to the first empty chunk (`if not chunk: break`). -/
def consumedLen : List (List Nat) → Nat
  | [] => 0
  | c :: rest => if c.length = 0 then 0 else c.length + consumedLen rest

/-- Tenacity's `retry(stop=stop_after_attempt(n))`: call the attempt; on an
exception retry until `n` attempts have been made; return the result
together with the number of attempts actually made.  By default tenacity
retries on any exception — including the oversize `RuntimeError`. -/
def tenacityRetry (f : Nat → Option Nat) : Nat → Nat → Option Nat × Nat
  | 0, made => (none, made)
  | n + 1, made =>
    match f made with
    | some a => (some a, made + 1)
    | none => if n = 0 then (none, made + 1) else tenacityRetry f n (made + 1)

/-- `download_stream` as decorated in the source:
`@retry(stop=stop_after_attempt(3), wait=wait_exponential(min=1, max=8))`.
The same response is fetched on each attempt. -/
def download_with_retry (maxBytes : Nat) (chunks : List (List Nat)) :
    Option Nat × Nat :=
  tenacityRetry (fun _ => (download_stream maxBytes chunks).outcome) 3 0

/-! ## The per-record fetch loop (resolve_fetch.py lines 313–472)

The network is abstracted per candidate URL into the eventual outcome of the
HEAD/GET/sniff/scrape decision chain for that URL: either a completed
download (with its byte count and sha256 digest), a deliberate rejection
(`skipped`), or an exception (`error`).  All three download branches of the
source share the identical post-download code: check the digest against
`seen_hashes`, delete and log `duplicate` if present (then `break` — without
setting `success`), otherwise record the digest, log `ok`, bump `picked`,
set `success`, and `break`. -/

inductive UrlOutcome where
  | download (bytes : Nat) (sha256 : List Char)
  | skipped
  | error
deriving DecidableEq

structure UrlAttempt where
  url : List Char
  outcome : UrlOutcome
deriving DecidableEq

inductive LogStatus where
  | ok | duplicate | skipped | noUrl | noDownload | error
deriving DecidableEq

/-- One line of logs/fetch.log: the terminal status, the URL (absent for the
record-level `no_url` / `no_download` lines), the digest when present, and
the record (source XML file) the line belongs to. -/
structure LogEntry where
  recordIdx : Nat
  status : LogStatus
  url : Option (List Char)
  sha256 : Option (List Char)
deriving DecidableEq

/-- Run-scoped state of `main`: `seen` is `seen_hashes`, `picked` the counter
of successful downloads, `spool` the digests of the files currently retained
in spool/bin, `log` the fetch log, and `attempts` the URLs for which any
network request (HEAD or GET) has been issued. -/
structure FetchState where
  seen : List (List Char)
  picked : Nat
  spool : List (List Char)
  log : List LogEntry
  attempts : List (List Char)
deriving DecidableEq

/-- The candidate-URL loop of `main` (resolve_fetch.py lines 329–466).
Returns the updated state and the `success` flag. -/
def processUrls (idx : Nat) (st : FetchState) : List UrlAttempt → FetchState × Bool
  | [] => (st, false)
  | a :: rest =>
    match a.outcome with
    | .download _b h =>
      if h ∈ st.seen then
        (⟨st.seen, st.picked, st.spool,
          st.log ++ [⟨idx, .duplicate, some a.url, some h⟩],
          st.attempts ++ [a.url]⟩, false)
      else
        (⟨h :: st.seen, st.picked + 1, st.spool ++ [h],
          st.log ++ [⟨idx, .ok, some a.url, some h⟩],
          st.attempts ++ [a.url]⟩, true)
    | .skipped =>
      processUrls idx
        ⟨st.seen, st.picked, st.spool,
          st.log ++ [⟨idx, .skipped, some a.url, none⟩],
          st.attempts ++ [a.url]⟩ rest
    | .error =>
      processUrls idx
        ⟨st.seen, st.picked, st.spool,
          st.log ++ [⟨idx, .error, some a.url, none⟩],
          st.attempts ++ [a.url]⟩ rest

/-- One record of the outer loop of `main` (resolve_fetch.py lines 316–469):
log `no_url` when resolution produced no candidates; otherwise run the
candidate loop and append `no_download` when it ended without `success`. -/
def processRecord (idx : Nat) (st : FetchState) (urls : List UrlAttempt) :
    FetchState :=
  if urls.isEmpty then
    ⟨st.seen, st.picked, st.spool, st.log ++ [⟨idx, .noUrl, none, none⟩], st.attempts⟩
  else
    let r := processUrls idx st urls
    if r.2 then r.1
    else
      ⟨r.1.seen, r.1.picked, r.1.spool,
        r.1.log ++ [⟨idx, .noDownload, none, none⟩], r.1.attempts⟩

/-- The outer loop of `main`, including the `picked >= limit` break. -/
def runRecords (limit : Nat) (st : FetchState) :
    List (Nat × List UrlAttempt) → FetchState
  | [] => st
  | (idx, urls) :: rest =>
    if limit ≤ st.picked then st
    else runRecords limit (processRecord idx st urls) rest

/-- The state at the top of `main`: empty dedup set, empty log. -/
def initFetchState : FetchState := ⟨[], 0, [], [], []⟩

/-- Digests carried by the `ok` lines of a fetch log. -/
def okShas (log : List LogEntry) : List (List Char) :=
  log.filterMap fun e => if e.status = .ok then e.sha256 else none

/-- Invariant tying the fetch log, the dedup set and the retained spool
files together: `ok` lines carry pairwise-distinct digests, every `ok`
digest is in `seen_hashes`, and the retained spool files are exactly the
`ok` digests. -/
def FetchInv (st : FetchState) : Prop :=
  (okShas st.log).Nodup ∧ (∀ h ∈ okShas st.log, h ∈ st.seen) ∧ st.spool = okShas st.log

/-- Run-length scanner used to reason about `collapseRuns`: `ok3 p k l`
holds when, entering `l` with a current run of `k` consecutive characters
satisfying `p`, no run of 3 or more such characters ever forms.  In
particular `ok3 p 0 l` says every maximal `p`-run of `l` is shorter than
3 — exactly the condition under which the `X{3,}` substitution of
`normalize_text` finds nothing to replace. -/
def ok3 (p : Char → Bool) : Nat → List Char → Bool
  | _, [] => true
  | k, c :: rest => if p c then decide (k + 1 < 3) && ok3 p (k + 1) rest else ok3 p 0 rest

/-! ## Theorems -/

theorem processDocument_ocrInvoked (minTokens : Nat) (minAlpha : ℚ)
    (text1 text2 : List Char) :
    (processDocument minTokens minAlpha text1 text2).ocrInvoked =
      should_apply_ocr (quality_metrics (normalize_text text1)) minTokens minAlpha := by
  simp only [processDocument]
  split
  next h =>
    split
    next => simp [h]
    next => simp [h]
  next h => simp [eq_comm, h]

/-- C7: Pass 2 (OCR) is invoked exactly when Pass 1's token count is below
the configured floor or its alpha ratio is below the configured floor; in
particular, when both floors are met Pass 2 is never invoked. -/
theorem c7_quality_gate (minTokens : Nat) (minAlpha : ℚ) (text1 text2 : List Char) :
    (processDocument minTokens minAlpha text1 text2).ocrInvoked = true ↔
      ((quality_metrics (normalize_text text1)).tokens < minTokens ∨
        (quality_metrics (normalize_text text1)).alphaRatio < minAlpha) := by
  rw [processDocument_ocrInvoked, should_apply_ocr]
  simp

/-- C1: when the quality gate triggers Pass 2, Pass 2's normalized text and
metrics are adopted if and only if its token count or its score strictly
exceeds Pass 1's; otherwise — ties included — Pass 1's text and metrics are
kept and `ocr_applied` stays false. -/
theorem c1_pass2_adoption (minTokens : Nat) (minAlpha : ℚ) (text1 text2 : List Char)
    (hgate : should_apply_ocr (quality_metrics (normalize_text text1)) minTokens minAlpha
      = true) :
    ((processDocument minTokens minAlpha text1 text2).ocrApplied = true ↔
      ((quality_metrics (normalize_text text1)).tokens <
          (quality_metrics (normalize_text text2)).tokens ∨
        (quality_metrics (normalize_text text1)).score <
          (quality_metrics (normalize_text text2)).score)) ∧
    (((quality_metrics (normalize_text text1)).tokens <
          (quality_metrics (normalize_text text2)).tokens ∨
        (quality_metrics (normalize_text text1)).score <
          (quality_metrics (normalize_text text2)).score) →
      processDocument minTokens minAlpha text1 text2 =
        ⟨normalize_text text2, quality_metrics (normalize_text text2), true, true,
          "ocr_and_text".toList⟩) ∧
    (¬((quality_metrics (normalize_text text1)).tokens <
          (quality_metrics (normalize_text text2)).tokens ∨
        (quality_metrics (normalize_text text1)).score <
          (quality_metrics (normalize_text text2)).score) →
      processDocument minTokens minAlpha text1 text2 =
        ⟨normalize_text text1, quality_metrics (normalize_text text1), true, false,
          "no_ocr".toList⟩) := by
  simp only [processDocument, hgate, if_true]
  split
  next hcond =>
    simp only [gt_iff_lt, Bool.or_eq_true, decide_eq_true_eq] at hcond
    simp [hcond]
  next hcond =>
    simp only [gt_iff_lt, Bool.or_eq_true, decide_eq_true_eq, not_or] at hcond
    simp [hcond.1, hcond.2]

/-- Witness for C1 at a concrete input: the empty Pass-1 text triggers the
gate for a token floor of 1, and a Pass-2 text with one token is adopted. -/
theorem c1_pass2_adoption_witness :
    should_apply_ocr (quality_metrics (normalize_text [])) 1 0 = true ∧
    ((processDocument 1 0 [] "hi".toList).ocrApplied = true ↔
      ((quality_metrics (normalize_text [])).tokens <
          (quality_metrics (normalize_text "hi".toList)).tokens ∨
        (quality_metrics (normalize_text [])).score <
          (quality_metrics (normalize_text "hi".toList)).score)) :=
  ⟨by decide, (c1_pass2_adoption 1 0 [] "hi".toList (by decide)).1⟩

/-- C4 as stated is false: the final `.strip()` of `normalize_text` also
removes the leading blank lines, so the example input does not normalize to
a string beginning with two newlines. -/
theorem c4_normalize_example_counterexample :
    ¬ normalize_text "\r\n\r\n\r\n\r\nHello   world\x07".toList =
      "\n\nHello  world".toList := by decide

/-- C4 amended: the example input normalizes to exactly `"Hello  world"` —
the control byte is stripped, the blank-line run is collapsed and then
removed entirely by the final leading/trailing trim, and the three-space run
is collapsed to two spaces. -/
theorem c4_normalize_example_amended :
    normalize_text "\r\n\r\n\r\n\r\nHello   world\x07".toList =
      "Hello  world".toList := by decide

theorem dlGo_spec (maxBytes : Nat) : ∀ (chunks : List (List Nat)) (total size : Nat)
    (trace : List Nat), size = total → total ≤ maxBytes → (∀ s ∈ trace, s ≤ maxBytes) →
    ((maxBytes < total + consumedLen chunks →
      (dlGo maxBytes total size trace chunks).outcome = none ∧
      (dlGo maxBytes total size trace chunks).finalFile = none) ∧
    ∀ s ∈ (dlGo maxBytes total size trace chunks).fileSizes, s ≤ maxBytes)
  | [], total, size, trace, _, htot, htr => by
    refine ⟨fun hover => absurd hover ?_, ?_⟩
    · simp [consumedLen]; omega
    · simpa [dlGo] using htr
  | c :: rest, total, size, trace, hsz, htot, htr => by
    by_cases hc : c.length = 0
    · refine ⟨fun hover => absurd hover ?_, ?_⟩
      · simp [consumedLen, hc]; omega
      · simpa [dlGo, hc] using htr
    · by_cases hceil : total + c.length > maxBytes
      · constructor
        · exact fun _ => by simp [dlGo, hc, hceil]
        · simpa [dlGo, hc, hceil] using htr
      · have hrec := dlGo_spec maxBytes rest (total + c.length) (size + c.length)
          (trace ++ [size + c.length]) (by omega) (by omega)
          (by
            intro s hs
            rcases List.mem_append.mp hs with h | h
            · exact htr s h
            · simp at h; omega)
        constructor
        · intro hover
          have : maxBytes < total + c.length + consumedLen rest := by
            simp [consumedLen, hc] at hover; omega
          have h1 := hrec.1 this
          simpa [dlGo, hc, hceil] using h1
        · intro s hs
          exact hrec.2 s (by simpa [dlGo, hc, hceil] using hs)

theorem download_stream_oversize (maxBytes : Nat) (chunks : List (List Nat))
    (h : maxBytes < consumedLen chunks) :
    (download_stream maxBytes chunks).outcome = none ∧
    (download_stream maxBytes chunks).finalFile = none ∧
    ∀ s ∈ (download_stream maxBytes chunks).fileSizes, s ≤ maxBytes := by
  have hs := dlGo_spec maxBytes chunks 0 0 [0] rfl (Nat.zero_le _)
    (by intro s hs; simp at hs; omega)
  exact ⟨(hs.1 (by omega)).1, (hs.1 (by omega)).2, hs.2⟩

/-- C2: when the response stream exceeds the byte ceiling, `download_stream`
aborts with the distinct oversize failure, the partial file is deleted
before the failure propagates, and at no point during the stream does the
file on disk exceed the ceiling. -/
theorem c2_byte_ceiling (maxBytes : Nat) (chunks : List (List Nat))
    (h : maxBytes < consumedLen chunks) :
    (download_stream maxBytes chunks).outcome = none ∧
    (download_stream maxBytes chunks).finalFile = none ∧
    ∀ s ∈ (download_stream maxBytes chunks).fileSizes, s ≤ maxBytes :=
  download_stream_oversize maxBytes chunks h

/-- Witness for C2 at a concrete input: a single 2-byte chunk against a
1-byte ceiling. -/
theorem c2_byte_ceiling_witness :
    1 < consumedLen [[7, 7]] ∧
    (download_stream 1 [[7, 7]]).outcome = none ∧
    (download_stream 1 [[7, 7]]).finalFile = none ∧
    ∀ s ∈ (download_stream 1 [[7, 7]]).fileSizes, s ≤ 1 :=
  ⟨by decide, (c2_byte_ceiling 1 [[7, 7]] (by decide)).1,
    (c2_byte_ceiling 1 [[7, 7]] (by decide)).2.1,
    (c2_byte_ceiling 1 [[7, 7]] (by decide)).2.2⟩

/-- C3 as stated is false: the oversize failure is raised inside the
`@retry(stop=stop_after_attempt(3))` wrapper, and tenacity retries any
exception, so an oversized payload is re-attempted — here the download of a
2-byte response against a 1-byte ceiling is attempted 3 times, not once. -/
theorem c3_oversize_retried_counterexample :
    (download_with_retry 1 [[7, 7]]).2 = 3 ∧ ¬ (download_with_retry 1 [[7, 7]]).2 = 1 := by
  decide

/-- C3 amended: an oversized payload is re-attempted under the same
3-attempt retry policy that covers transient failures (tenacity retries the
oversize `RuntimeError` like any exception); each attempt deletes its
partial file before raising, the wrapper's result after the third attempt is
still the failure, and the URL attempt is then reported with status
`error`. -/
theorem c3_oversize_retry_amended (maxBytes : Nat) (chunks : List (List Nat))
    (h : maxBytes < consumedLen chunks) :
    (download_with_retry maxBytes chunks).1 = none ∧
    (download_with_retry maxBytes chunks).2 = 3 ∧
    (download_stream maxBytes chunks).finalFile = none ∧
    ∀ (idx : Nat) (st : FetchState) (u : List Char),
      (processUrls idx st [⟨u, .error⟩]).1.log =
        st.log ++ [⟨idx, .error, some u, none⟩] := by
  have hout : (download_stream maxBytes chunks).outcome = none :=
    (download_stream_oversize maxBytes chunks h).1
  refine ⟨?_, ?_, (download_stream_oversize maxBytes chunks h).2.1, ?_⟩
  · simp [download_with_retry, tenacityRetry, hout]
  · simp [download_with_retry, tenacityRetry, hout]
  · intro idx st u
    simp [processUrls]

/-- Witness for C3's amended theorem at the same concrete input. -/
theorem c3_oversize_retry_amended_witness :
    1 < consumedLen [[7, 7]] ∧ (download_with_retry 1 [[7, 7]]).1 = none ∧
    (download_with_retry 1 [[7, 7]]).2 = 3 ∧
    (download_stream 1 [[7, 7]]).finalFile = none :=
  ⟨by decide, (c3_oversize_retry_amended 1 [[7, 7]] (by decide)).1,
    (c3_oversize_retry_amended 1 [[7, 7]] (by decide)).2.1,
    (c3_oversize_retry_amended 1 [[7, 7]] (by decide)).2.2.1⟩

theorem okShas_append (l1 l2 : List LogEntry) :
    okShas (l1 ++ l2) = okShas l1 ++ okShas l2 := by
  simp [okShas]

theorem processUrls_inv (idx : Nat) : ∀ (urls : List UrlAttempt) (st : FetchState),
    FetchInv st → FetchInv (processUrls idx st urls).1
  | [], st, hinv => hinv
  | a :: rest, st, hinv => by
    obtain ⟨hnd, hsub, hsp⟩ := hinv
    match ha : a.outcome with
    | .download b h =>
      by_cases hmem : h ∈ st.seen
      · simp only [processUrls, ha, hmem, if_pos]
        exact ⟨by simpa [okShas_append, okShas] using hnd,
          by simpa [okShas_append, okShas] using hsub,
          by simpa [okShas_append, okShas] using hsp⟩
      · simp only [processUrls, ha, hmem, if_neg, not_false_iff]
        refine ⟨?_, ?_, ?_⟩
        · rw [okShas_append]
          rw [List.nodup_append]
          refine ⟨hnd, by simp [okShas], ?_⟩
          intro x hx
          simp [okShas]
          rintro rfl
          exact hmem (hsub x hx)
        · intro x hx
          rw [okShas_append] at hx
          rcases List.mem_append.mp hx with hx | hx
          · exact List.mem_cons_of_mem _ (hsub x hx)
          · simp [okShas] at hx
            simp [hx]
        · simp [okShas_append, okShas, hsp]
    | .skipped =>
      simp only [processUrls, ha]
      exact processUrls_inv idx rest _
        ⟨by simpa [okShas_append, okShas] using hnd,
          by simpa [okShas_append, okShas] using hsub,
          by simpa [okShas_append, okShas] using hsp⟩
    | .error =>
      simp only [processUrls, ha]
      exact processUrls_inv idx rest _
        ⟨by simpa [okShas_append, okShas] using hnd,
          by simpa [okShas_append, okShas] using hsub,
          by simpa [okShas_append, okShas] using hsp⟩

theorem processRecord_inv (idx : Nat) (st : FetchState) (urls : List UrlAttempt)
    (hinv : FetchInv st) : FetchInv (processRecord idx st urls) := by
  obtain ⟨hnd, hsub, hsp⟩ := hinv
  by_cases he : urls.isEmpty
  · simp only [processRecord, he, if_true]
    exact ⟨by simpa [okShas_append, okShas] using hnd,
      by simpa [okShas_append, okShas] using hsub,
      by simpa [okShas_append, okShas] using hsp⟩
  · have he' : urls.isEmpty = false := by simpa using he
    have hrec := processUrls_inv idx urls st ⟨hnd, hsub, hsp⟩
    obtain ⟨hnd', hsub', hsp'⟩ := hrec
    have heq : processRecord idx st urls =
        if (processUrls idx st urls).2 then (processUrls idx st urls).1
        else ⟨(processUrls idx st urls).1.seen, (processUrls idx st urls).1.picked,
          (processUrls idx st urls).1.spool,
          (processUrls idx st urls).1.log ++ [⟨idx, .noDownload, none, none⟩],
          (processUrls idx st urls).1.attempts⟩ := by
      simp [processRecord, he']
    rw [heq]
    by_cases hs : (processUrls idx st urls).2 = true
    · rw [if_pos hs]
      exact ⟨hnd', hsub', hsp'⟩
    · rw [if_neg hs]
      have hok : okShas ((processUrls idx st urls).1.log ++
          [⟨idx, LogStatus.noDownload, none, none⟩]) =
          okShas (processUrls idx st urls).1.log := by
        simp [okShas_append, okShas]
      exact ⟨by rw [hok]; exact hnd', by rw [hok]; exact hsub',
        by rw [hok]; exact hsp'⟩

theorem runRecords_inv (limit : Nat) : ∀ (records : List (Nat × List UrlAttempt))
    (st : FetchState), FetchInv st → FetchInv (runRecords limit st records)
  | [], _, hinv => hinv
  | (idx, urls) :: rest, st, hinv => by
    unfold runRecords
    split
    · exact hinv
    · exact runRecords_inv limit rest _ (processRecord_inv idx st urls hinv)

/-- C5: within a single run starting from the empty dedup set, no two `ok`
fetch-log lines carry the same sha256 and the retained spool files are
exactly the `ok` digests (one per digest); moreover any download whose
digest is already in `seen_hashes` is deleted (spool unchanged), logged
`duplicate`, and ends the candidate loop without success. -/
theorem c5_dedup (limit : Nat) (records : List (Nat × List UrlAttempt)) :
    ((okShas (runRecords limit initFetchState records).log).Nodup ∧
      (runRecords limit initFetchState records).spool =
        okShas (runRecords limit initFetchState records).log) ∧
    ∀ (idx : Nat) (st : FetchState) (u sha : List Char) (b : Nat)
      (rest : List UrlAttempt), sha ∈ st.seen →
      processUrls idx st (⟨u, .download b sha⟩ :: rest) =
        (⟨st.seen, st.picked, st.spool,
          st.log ++ [⟨idx, .duplicate, some u, some sha⟩],
          st.attempts ++ [u]⟩, false) := by
  constructor
  · have hinv := runRecords_inv limit records initFetchState
      (by refine ⟨?_, ?_, ?_⟩ <;> simp [initFetchState, okShas])
    exact ⟨hinv.1, hinv.2.2⟩
  · intro idx st u sha b rest hmem
    simp [processUrls, hmem]

/-- Witness for C5 at a concrete input: a second download of an
already-seen digest is logged `duplicate`, the spool is unchanged, and the
candidate loop ends without success. -/
theorem c5_dedup_witness :
    "h".toList ∈ (⟨["h".toList], 1, ["h".toList], [], []⟩ : FetchState).seen ∧
    processUrls 1 ⟨["h".toList], 1, ["h".toList], [], []⟩
        [⟨"u2".toList, .download 5 "h".toList⟩] =
      (⟨["h".toList], 1, ["h".toList],
        [⟨1, .duplicate, some "u2".toList, some "h".toList⟩], ["u2".toList]⟩, false) :=
  ⟨by decide,
    (c5_dedup 0 []).2 1 ⟨["h".toList], 1, ["h".toList], [], []⟩ "u2".toList
      "h".toList 5 [] (by decide)⟩

/-- C8 as stated is false: a record whose first candidate downloads
byte-identical content (classified `duplicate`) breaks the candidate loop
without setting `success`, so the record is additionally logged
`no_download` — and its remaining candidate is never attempted. -/
theorem c8_no_download_counterexample :
    (runRecords 10 initFetchState
      [(0, [⟨"u1".toList, .download 5 "h".toList⟩]),
       (1, [⟨"u2".toList, .download 5 "h".toList⟩, ⟨"u3".toList, .skipped⟩])]).log =
      [⟨0, .ok, some "u1".toList, some "h".toList⟩,
       ⟨1, .duplicate, some "u2".toList, some "h".toList⟩,
       ⟨1, .noDownload, none, none⟩] ∧
    (runRecords 10 initFetchState
      [(0, [⟨"u1".toList, .download 5 "h".toList⟩]),
       (1, [⟨"u2".toList, .download 5 "h".toList⟩, ⟨"u3".toList, .skipped⟩])]).attempts =
      ["u1".toList, "u2".toList] := by decide

theorem processUrls_success_iff (idx : Nat) : ∀ (urls : List UrlAttempt)
    (st : FetchState), (processUrls idx st urls).2 = true ↔
      okShas (processUrls idx st urls).1.log ≠ okShas st.log
  | [], st => by simp [processUrls]
  | a :: rest, st => by
    match ha : a.outcome with
    | .download b h =>
      by_cases hmem : h ∈ st.seen
      · simp [processUrls, ha, hmem, okShas_append, okShas]
      · simp only [processUrls, ha, hmem, if_neg, not_false_iff]
        simp only [okShas_append]
        constructor
        · intro _ heq
          have := congrArg List.length heq
          simp [okShas] at this
        · intro _
          trivial
    | .skipped =>
      simp only [processUrls, ha]
      rw [processUrls_success_iff idx rest]
      simp [okShas_append, okShas]
    | .error =>
      simp only [processUrls, ha]
      rw [processUrls_success_iff idx rest]
      simp [okShas_append, okShas]

/-- C8 amended: `no_download` is appended for a record exactly when its
candidate list is non-empty and the candidate loop ends without `success`
(an `ok` download); a candidate classified `duplicate` ends the loop early
but does not count as success, so such a record is still logged
`no_download` with its remaining candidates unattempted. -/
theorem c8_no_download_amended :
    (∀ (idx : Nat) (st : FetchState) (u sha : List Char) (b : Nat)
        (rest : List UrlAttempt), sha ∈ st.seen →
      processRecord idx st (⟨u, .download b sha⟩ :: rest) =
        ⟨st.seen, st.picked, st.spool,
          st.log ++ [⟨idx, .duplicate, some u, some sha⟩, ⟨idx, .noDownload, none, none⟩],
          st.attempts ++ [u]⟩) ∧
    (∀ (idx : Nat) (st : FetchState) (urls : List UrlAttempt), urls ≠ [] →
      (processRecord idx st urls).log =
        (processUrls idx st urls).1.log ++
          (if (processUrls idx st urls).2 then [] else [⟨idx, .noDownload, none, none⟩])) ∧
    (∀ (idx : Nat) (st : FetchState) (urls : List UrlAttempt),
      (processUrls idx st urls).2 = true ↔
        okShas (processUrls idx st urls).1.log ≠ okShas st.log) := by
  refine ⟨?_, ?_, fun idx st urls => processUrls_success_iff idx urls st⟩
  · intro idx st u sha b rest hmem
    simp [processRecord, processUrls, hmem]
  · intro idx st urls hne
    unfold processRecord
    split
    · simp_all
    · split
      next hs => simp [hs]
      next hs => simp [hs]

/-- Witness for C8's amended theorem at a concrete input. -/
theorem c8_no_download_amended_witness :
    "h".toList ∈ (⟨["h".toList], 1, ["h".toList], [], []⟩ : FetchState).seen ∧
    processRecord 1 ⟨["h".toList], 1, ["h".toList], [], []⟩
        [⟨"u2".toList, .download 5 "h".toList⟩] =
      ⟨["h".toList], 1, ["h".toList],
        [⟨1, .duplicate, some "u2".toList, some "h".toList⟩,
          ⟨1, .noDownload, none, none⟩], ["u2".toList]⟩ :=
  ⟨by decide,
    c8_no_download_amended.1 1 ⟨["h".toList], 1, ["h".toList], [], []⟩ "u2".toList
      "h".toList 5 [] (by decide)⟩

theorem runRecords_cons (limit idx : Nat) (st : FetchState) (urls : List UrlAttempt)
    (rest : List (Nat × List UrlAttempt)) :
    runRecords limit st ((idx, urls) :: rest) =
      if limit ≤ st.picked then st
      else runRecords limit (processRecord idx st urls) rest := rfl

/-- C9: a record none of whose identifier texts qualifies resolves to the
empty candidate list, is logged with the distinct terminal status `no_url`,
causes no network attempt (the attempted-URL list is unchanged), and the
run simply continues with the remaining records. -/
theorem c9_no_url (ids : List (List Char)) (oracle : List Char → UrlOutcome)
    (idx limit : Nat) (st : FetchState) (rest : List (Nat × List UrlAttempt))
    (hq : ∀ t ∈ ids, qualifiesUrl (pyStrip t) = false) (hlim : st.picked < limit) :
    find_urls_from_xml ids = [] ∧
    processRecord idx st ((find_urls_from_xml ids).map fun u => ⟨u, oracle u⟩) =
      ⟨st.seen, st.picked, st.spool, st.log ++ [⟨idx, .noUrl, none, none⟩],
        st.attempts⟩ ∧
    runRecords limit st
        ((idx, (find_urls_from_xml ids).map fun u => ⟨u, oracle u⟩) :: rest) =
      runRecords limit
        ⟨st.seen, st.picked, st.spool, st.log ++ [⟨idx, .noUrl, none, none⟩],
          st.attempts⟩ rest := by
  have hempty : find_urls_from_xml ids = [] := by
    unfold find_urls_from_xml
    have hfil : ((ids.map pyStrip).filter fun t => !t.isEmpty && qualifiesUrl t) = [] := by
      rw [List.filter_eq_nil_iff]
      intro t ht
      rcases List.mem_map.mp ht with ⟨t0, ht0, rfl⟩
      simp [hq t0 ht0]
    rw [hfil]
    simp [pySortedByRank, dedupFirstAux]
  refine ⟨hempty, ?_, ?_⟩
  · rw [hempty]
    simp [processRecord]
  · rw [hempty]
    have hpr : processRecord idx st (([] : List (List Char)).map fun u =>
        (⟨u, oracle u⟩ : UrlAttempt)) =
        ⟨st.seen, st.picked, st.spool, st.log ++ [⟨idx, .noUrl, none, none⟩],
          st.attempts⟩ := by
      simp [processRecord]
    rw [runRecords_cons, if_neg (Nat.not_le.mpr hlim), hpr]

/-- Witness for C9 at a concrete input: one non-qualifying identifier. -/
theorem c9_no_url_witness :
    (∀ t ∈ ["hello mundo".toList], qualifiesUrl (pyStrip t) = false) ∧
    (0 : Nat) < 1 ∧
    find_urls_from_xml ["hello mundo".toList] = [] ∧
    processRecord 0 initFetchState
        ((find_urls_from_xml ["hello mundo".toList]).map fun u =>
          ⟨u, (fun _ => UrlOutcome.skipped) u⟩) =
      ⟨[], 0, [], [⟨0, .noUrl, none, none⟩], []⟩ :=
  ⟨by decide, by decide,
    (c9_no_url ["hello mundo".toList] (fun _ => UrlOutcome.skipped) 0 1
      initFetchState [] (by decide) (by decide)).1,
    (c9_no_url ["hello mundo".toList] (fun _ => UrlOutcome.skipped) 0 1
      initFetchState [] (by decide) (by decide)).2.1⟩

theorem priRank_lt (u : List Char) : priRank u < 8 := by
  simp only [priRank]
  split_ifs <;> norm_num

theorem mem_rank_flatMap {l : List (List Char)} {a : List Char} {n : Nat}
    (h : a ∈ (List.range n).flatMap fun j => l.filter fun u => priRank u = j) :
    a ∈ l ∧ priRank a < n := by
  rcases List.mem_flatMap.mp h with ⟨j, hj, ha⟩
  rcases List.mem_filter.mp ha with ⟨hal, hrk⟩
  refine ⟨hal, ?_⟩
  have hjn := List.mem_range.mp hj
  simp at hrk
  omega

theorem mem_pySortedByRank {l : List (List Char)} {u : List Char} :
    u ∈ pySortedByRank l ↔ u ∈ l := by
  constructor
  · intro h
    exact (mem_rank_flatMap h).1
  · intro h
    refine List.mem_flatMap.mpr ⟨priRank u, List.mem_range.mpr (priRank_lt u), ?_⟩
    exact List.mem_filter.mpr ⟨h, by simp⟩

theorem pairwise_rank_flatMap (l : List (List Char)) : ∀ n : Nat,
    ((List.range n).flatMap fun j => l.filter fun u => priRank u = j).Pairwise
      fun a b => priRank a ≤ priRank b
  | 0 => by simp
  | n + 1 => by
    rw [List.range_succ, List.flatMap_append]
    rw [List.pairwise_append]
    refine ⟨pairwise_rank_flatMap l n, ?_, ?_⟩
    · simp only [List.flatMap_cons, List.flatMap_nil, List.append_nil]
      refine List.pairwise_of_forall_mem_list ?_
      intro a ha b hb
      have h1 := (List.mem_filter.mp ha).2
      have h2 := (List.mem_filter.mp hb).2
      simp at h1 h2
      omega
    · intro a ha b hb
      have h1 := (mem_rank_flatMap ha).2
      simp only [List.flatMap_cons, List.flatMap_nil, List.append_nil] at hb
      have h2 := (List.mem_filter.mp hb).2
      simp at h2
      omega

theorem sublist_dedupFirstAux : ∀ (l seen : List (List Char)),
    List.Sublist (dedupFirstAux seen l) l
  | [], _ => by simp [dedupFirstAux]
  | v :: rest, seen => by
    unfold dedupFirstAux
    split
    · exact (sublist_dedupFirstAux rest seen).cons v
    · exact (sublist_dedupFirstAux rest (v :: seen)).cons₂ v

theorem mem_dedupFirstAux : ∀ (l seen : List (List Char)) (u : List Char),
    u ∈ dedupFirstAux seen l ↔ u ∈ l ∧ u ∉ seen
  | [], seen, u => by simp [dedupFirstAux]
  | v :: rest, seen, u => by
    unfold dedupFirstAux
    split
    next hv =>
      rw [mem_dedupFirstAux rest seen u]
      constructor
      · rintro ⟨h1, h2⟩
        exact ⟨List.mem_cons_of_mem _ h1, h2⟩
      · rintro ⟨h1, h2⟩
        rcases List.mem_cons.mp h1 with rfl | h1
        · exact absurd hv h2
        · exact ⟨h1, h2⟩
    next hv =>
      rw [List.mem_cons, mem_dedupFirstAux rest (v :: seen) u]
      constructor
      · rintro (rfl | ⟨h1, h2⟩)
        · exact ⟨List.mem_cons_self _ _, hv⟩
        · exact ⟨List.mem_cons_of_mem _ h1, fun hc => h2 (List.mem_cons_of_mem _ hc)⟩
      · rintro ⟨h1, h2⟩
        by_cases huv : u = v
        · exact Or.inl huv
        · rcases List.mem_cons.mp h1 with rfl | h1
          · exact absurd rfl huv
          · exact Or.inr ⟨h1, by simp [huv, h2]⟩

theorem nodup_dedupFirstAux : ∀ (l seen : List (List Char)),
    (dedupFirstAux seen l).Nodup
  | [], _ => by simp [dedupFirstAux]
  | v :: rest, seen => by
    unfold dedupFirstAux
    split
    · exact nodup_dedupFirstAux rest seen
    · refine List.Nodup.cons ?_ (nodup_dedupFirstAux rest (v :: seen))
      intro hc
      exact ((mem_dedupFirstAux rest (v :: seen) v).mp hc).2 (List.mem_cons_self _ _)

theorem filter_pySortedByRank_aux (l : List (List Char)) (k : Nat) : ∀ n : Nat, k < n →
    (((List.range n).flatMap fun j => l.filter fun u => priRank u = j).filter
      fun u => priRank u = k) = l.filter fun u => priRank u = k
  | 0, h => absurd h (by omega)
  | n + 1, h => by
    rw [List.range_succ, List.flatMap_append, List.filter_append]
    simp only [List.flatMap_cons, List.flatMap_nil, List.append_nil]
    by_cases hkn : k < n
    · rw [filter_pySortedByRank_aux l k n hkn]
      have h2 : ((l.filter fun u => priRank u = n).filter fun u => priRank u = k) = [] := by
        rw [List.filter_eq_nil_iff]
        intro a ha
        have := (List.mem_filter.mp ha).2
        simp at this ⊢
        omega
      rw [h2, List.append_nil]
    · have hk_eq : k = n := by omega
      subst hk_eq
      have h1 : (((List.range k).flatMap fun j =>
          l.filter fun u => priRank u = j).filter fun u => priRank u = k) = [] := by
        rw [List.filter_eq_nil_iff]
        intro a ha
        have := (mem_rank_flatMap ha).2
        simp
        omega
      rw [h1, List.nil_append]
      rw [List.filter_filter]
      refine List.filter_congr ?_
      intro a _
      simp [Bool.and_self]

/-- C6: the resolver's ordering and deduplication behaviour.  The example
record resolves as the spec claims; candidate output is sorted by the
priority rank (non-decreasingly, most preferred first); the output is
duplicate-free; the stable sort preserves the original relative order of
each equal-priority group; and membership is exactly the set of normalized
qualifying identifiers (DOI-prefixed tokens in `https://doi.org/` form). -/
theorem c6_candidate_priority :
    (find_urls_from_xml ["doi:10.1/abc".toList, "https://repo.example/bitstream/1".toList] =
      ["https://doi.org/10.1/abc".toList, "https://repo.example/bitstream/1".toList]) ∧
    (∀ ids : List (List Char),
      (find_urls_from_xml ids).Pairwise fun a b => priRank a ≤ priRank b) ∧
    (∀ ids : List (List Char), (find_urls_from_xml ids).Nodup) ∧
    (∀ (l : List (List Char)) (k : Nat),
      ((pySortedByRank l).filter fun u => priRank u = k) =
        l.filter fun u => priRank u = k) ∧
    (∀ (ids : List (List Char)) (u : List Char),
      u ∈ find_urls_from_xml ids ↔
        u ∈ ((ids.map pyStrip).filter fun t => !t.isEmpty && qualifiesUrl t).map
          normalize_identifier) := by
  refine ⟨by decide, ?_, ?_, ?_, ?_⟩
  · intro ids
    simp only [find_urls_from_xml]
    exact List.Pairwise.sublist (sublist_dedupFirstAux _ []) (pairwise_rank_flatMap _ 8)
  · intro ids
    simp only [find_urls_from_xml]
    exact nodup_dedupFirstAux _ []
  · intro l k
    by_cases hk : k < 8
    · exact filter_pySortedByRank_aux l k 8 hk
    · have h1 : ((pySortedByRank l).filter fun u => priRank u = k) = [] := by
        rw [List.filter_eq_nil_iff]
        intro a ha
        have := priRank_lt a
        simp
        omega
      have h2 : (l.filter fun u => priRank u = k) = [] := by
        rw [List.filter_eq_nil_iff]
        intro a _
        have := priRank_lt a
        simp
        omega
      rw [h1, h2]
  · intro ids u
    rw [find_urls_from_xml]
    rw [mem_dedupFirstAux]
    simp only [List.not_mem_nil, not_false_iff, and_true]
    exact mem_pySortedByRank

theorem ok3_mono {p : Char → Bool} : ∀ (l : List Char) (j k : Nat), j ≤ k →
    ok3 p k l = true → ok3 p j l = true
  | [], _, _, _, _ => rfl
  | c :: rest, j, k, hjk, h => by
    by_cases hp : p c = true
    · simp only [ok3, hp, if_true, Bool.and_eq_true, decide_eq_true_eq] at h ⊢
      exact ⟨by omega, ok3_mono rest (j + 1) (k + 1) (by omega) h.2⟩
    · simp only [ok3, hp, if_false, Bool.false_eq_true] at h ⊢
      simpa [hp] using h

theorem ok3_tail {p : Char → Bool} {c : Char} {l : List Char} {k : Nat}
    (h : ok3 p k (c :: l) = true) : ok3 p 0 l = true := by
  by_cases hp : p c = true
  · simp only [ok3, hp, if_true, Bool.and_eq_true] at h
    exact ok3_mono l 0 (k + 1) (by omega) h.2
  · simpa [ok3, hp] using h

theorem ok3_dropWhile {p q : Char → Bool} : ∀ (l : List Char),
    ok3 p 0 l = true → ok3 p 0 (l.dropWhile q) = true
  | [], _ => rfl
  | c :: rest, h => by
    rw [List.dropWhile_cons]
    by_cases hq : q c = true
    · rw [if_pos hq]
      exact ok3_dropWhile rest (ok3_tail h)
    · rw [if_neg hq]
      exact h

theorem ok3_append_left {p : Char → Bool} : ∀ (l₁ l₂ : List Char) (k : Nat),
    ok3 p k (l₁ ++ l₂) = true → ok3 p k l₁ = true
  | [], _, _, _ => rfl
  | c :: rest, l₂, k, h => by
    by_cases hp : p c = true
    · simp only [List.cons_append, ok3, hp, if_true, Bool.and_eq_true] at h ⊢
      exact ⟨h.1, ok3_append_left rest l₂ (k + 1) h.2⟩
    · simp only [List.cons_append, ok3] at h ⊢
      rw [if_neg hp] at h ⊢
      exact ok3_append_left rest l₂ 0 h

theorem ok3_allp_short {p : Char → Bool} : ∀ {l : List Char},
    (∀ c ∈ l, p c = true) → l.length ≤ 2 → ok3 p 0 l = true
  | [], _, _ => rfl
  | [a], h, _ => by
    simp [ok3, h a (by simp)]
  | [a, b], h, _ => by
    simp [ok3, h a (by simp), h b (by simp)]
  | _ :: _ :: _ :: _, _, hlen => by
    simp at hlen

theorem ok3_allnp {p : Char → Bool} : ∀ (l : List Char) (k : Nat),
    (∀ c ∈ l, p c = false) → ok3 p k l = true
  | [], _, _ => rfl
  | c :: rest, k, h => by
    simp only [ok3, h c (by simp), if_false, Bool.false_eq_true]
    exact ok3_allnp rest 0 fun x hx => h x (by simp [hx])

theorem ok3_allnp_append {p : Char → Bool} : ∀ (xs ys : List Char) (k : Nat),
    xs ≠ [] → (∀ c ∈ xs, p c = false) → ok3 p 0 ys = true →
    ok3 p k (xs ++ ys) = true
  | [], _, _, hne, _, _ => absurd rfl hne
  | [x], ys, k, _, hx, hy => by
    simp only [List.cons_append, List.nil_append, ok3, hx x (by simp), if_false,
      Bool.false_eq_true]
    exact hy
  | x :: x' :: xs, ys, k, _, hx, hy => by
    simp only [List.cons_append, ok3, hx x (by simp), if_false, Bool.false_eq_true]
    exact ok3_allnp_append (x' :: xs) ys 0 (by simp)
      (fun c hc => hx c (by simp at hc ⊢; tauto)) hy

theorem ok3_allp_append_cons {p : Char → Bool} {c : Char} : ∀ {xs ys : List Char},
    (∀ a ∈ xs, p a = true) → xs.length ≤ 2 → p c = false → ok3 p 0 ys = true →
    ok3 p 0 (xs ++ c :: ys) = true
  | [], ys, _, _, hc, hy => by
    simp only [List.nil_append, ok3, hc, if_false, Bool.false_eq_true]
    exact hy
  | [a], ys, hxs, _, hc, hy => by
    simp only [List.cons_append, List.nil_append, ok3, hxs a (by simp), if_true, hc,
      if_false, Bool.false_eq_true]
    simp [hc, hy]
  | [a, b], ys, hxs, _, hc, hy => by
    simp only [List.cons_append, List.nil_append, ok3, hxs a (by simp),
      hxs b (by simp), if_true, hc, if_false, Bool.false_eq_true]
    simp [hc, hy]
  | _ :: _ :: _ :: _, _, _, hlen, _, _ => by
    simp at hlen

theorem collapseEmit_allp {p : Char → Bool} {rep buf : List Char}
    (hrep : ∀ c ∈ rep, p c = true) (hlen : rep.length ≤ 2)
    (hbuf : ∀ c ∈ buf, p c = true) :
    (∀ c ∈ collapseEmit rep buf, p c = true) ∧ (collapseEmit rep buf).length ≤ 2 := by
  unfold collapseEmit
  split
  · exact ⟨hrep, hlen⟩
  next hne => exact ⟨hbuf, by omega⟩

theorem goCollapse_eq_of_ok3 {p : Char → Bool} {rep : List Char} :
    ∀ (l buf : List Char), (∀ c ∈ buf, p c = true) → buf.length ≤ 2 →
    ok3 p buf.length l = true → goCollapse p rep buf l = buf ++ l
  | [], buf, _, hlen, _ => by
    simp [goCollapse, collapseEmit, Nat.not_le.mpr (by omega : buf.length < 3)]
  | c :: rest, buf, hbuf, hlen, h => by
    by_cases hp : p c = true
    · simp only [ok3, hp, if_true, Bool.and_eq_true, decide_eq_true_eq] at h
      have hlen' : (buf ++ [c]).length ≤ 2 := by simp; omega
      have hbuf' : ∀ x ∈ buf ++ [c], p x = true := by
        intro x hx
        rcases List.mem_append.mp hx with hx | hx
        · exact hbuf x hx
        · simp at hx
          simp [hx, hp]
      rw [goCollapse, if_pos hp]
      rw [goCollapse_eq_of_ok3 rest (buf ++ [c]) hbuf' hlen' (by simpa using h.2)]
      simp
    · simp only [ok3] at h
      rw [if_neg hp] at h
      rw [goCollapse, if_neg hp]
      rw [goCollapse_eq_of_ok3 rest [] (by simp) (by simp) (by simpa using h)]
      simp [collapseEmit, Nat.not_le.mpr (by omega : buf.length < 3)]

theorem collapseRuns_eq_of_ok3 {p : Char → Bool} {rep : List Char} (l : List Char)
    (h : ok3 p 0 l = true) : collapseRuns p rep l = l :=
  goCollapse_eq_of_ok3 l [] (by simp) (by simp) h

theorem ok3_goCollapse {p : Char → Bool} {rep : List Char}
    (hrep : ∀ c ∈ rep, p c = true) (hlen : rep.length ≤ 2) :
    ∀ (l buf : List Char), (∀ c ∈ buf, p c = true) →
    ok3 p 0 (goCollapse p rep buf l) = true
  | [], buf, hbuf => by
    have he := collapseEmit_allp hrep hlen hbuf
    exact ok3_allp_short he.1 he.2
  | c :: rest, buf, hbuf => by
    by_cases hp : p c = true
    · rw [goCollapse, if_pos hp]
      refine ok3_goCollapse hrep hlen rest (buf ++ [c]) ?_
      intro x hx
      rcases List.mem_append.mp hx with hx | hx
      · exact hbuf x hx
      · simp at hx
        simp [hx, hp]
    · rw [goCollapse, if_neg hp]
      have he := collapseEmit_allp hrep hlen hbuf
      exact ok3_allp_append_cons he.1 he.2 (by simpa using hp)
        (ok3_goCollapse hrep hlen rest [] (by simp))

theorem ok3_collapseRuns {p : Char → Bool} {rep : List Char}
    (hrep : ∀ c ∈ rep, p c = true) (hlen : rep.length ≤ 2) (l : List Char) :
    ok3 p 0 (collapseRuns p rep l) = true :=
  ok3_goCollapse hrep hlen l [] (by simp)

theorem mem_collapseEmit {rep buf : List Char} {c : Char}
    (h : c ∈ collapseEmit rep buf) : c ∈ rep ∨ c ∈ buf := by
  unfold collapseEmit at h
  split at h
  · exact Or.inl h
  · exact Or.inr h

theorem mem_goCollapse {p : Char → Bool} {rep : List Char} :
    ∀ {l buf : List Char} {c : Char}, c ∈ goCollapse p rep buf l →
    c ∈ rep ∨ c ∈ buf ∨ c ∈ l
  | [], buf, c, h => by
    rcases mem_collapseEmit (by simpa [goCollapse] using h) with h | h
    · exact Or.inl h
    · exact Or.inr (Or.inl h)
  | a :: rest, buf, c, h => by
    by_cases hp : p a = true
    · rw [goCollapse, if_pos hp] at h
      rcases mem_goCollapse h with h | h | h
      · exact Or.inl h
      · rcases List.mem_append.mp h with h | h
        · exact Or.inr (Or.inl h)
        · simp at h
          simp [h]
      · simp [h]
    · rw [goCollapse, if_neg hp] at h
      rcases List.mem_append.mp h with h | h
      · rcases mem_collapseEmit h with h | h
        · exact Or.inl h
        · exact Or.inr (Or.inl h)
      · rcases List.mem_cons.mp h with rfl | h
        · exact Or.inr (Or.inr (by simp))
        · rcases mem_goCollapse h with h | h | h
          · exact Or.inl h
          · simp at h
          · exact Or.inr (Or.inr (by simp [h]))

theorem mem_collapseRuns {p : Char → Bool} {rep l : List Char} {c : Char}
    (h : c ∈ collapseRuns p rep l) : c ∈ rep ∨ c ∈ l := by
  rcases mem_goCollapse h with h | h | h
  · exact Or.inl h
  · simp at h
  · exact Or.inr h

theorem ok3_cons_not {p : Char → Bool} {c : Char} {l : List Char} {k : Nat}
    (hp : p c = false) : ok3 p k (c :: l) = ok3 p 0 l := by
  rw [ok3, if_neg (by simp [hp])]

theorem goCollapse_head_q {q : Char → Bool} {rep : List Char} (hrepne : rep ≠ [])
    (hrep : ∀ c ∈ rep, q c = true) :
    ∀ (l buf : List Char), buf ≠ [] → (∀ c ∈ buf, q c = true) →
    ∃ d ds, goCollapse q rep buf l = d :: ds ∧ q d = true
  | [], buf, hne, hbuf => by
    simp only [goCollapse]
    unfold collapseEmit
    split
    · match rep, hrepne with
      | d :: ds, _ => exact ⟨d, ds, rfl, hrep d (by simp)⟩
    · match buf, hne with
      | d :: ds, _ => exact ⟨d, ds, rfl, hbuf d (by simp)⟩
  | c :: rest, buf, hne, hbuf => by
    by_cases hq : q c = true
    · rw [goCollapse, if_pos hq]
      refine goCollapse_head_q hrepne hrep rest (buf ++ [c]) (by simp) ?_
      intro x hx
      rcases List.mem_append.mp hx with hx | hx
      · exact hbuf x hx
      · simp at hx
        simp [hx, hq]
    · rw [goCollapse, if_neg hq]
      have hemit : ∃ d ds, collapseEmit rep buf = d :: ds ∧ q d = true := by
        unfold collapseEmit
        split
        · match rep, hrepne with
          | d :: ds, _ => exact ⟨d, ds, rfl, hrep d (by simp)⟩
        · match buf, hne with
          | d :: ds, _ => exact ⟨d, ds, rfl, hbuf d (by simp)⟩
      obtain ⟨d, ds, hds, hqd⟩ := hemit
      exact ⟨d, ds ++ c :: goCollapse q rep [] rest, by rw [hds]; simp, hqd⟩

theorem ok3_goCollapse_disj {p q : Char → Bool} {rep : List Char}
    (hdisj : ∀ c, q c = true → p c = false) (hrepne : rep ≠ [])
    (hrep : ∀ c ∈ rep, q c = true) :
    ∀ (l buf : List Char) (k : Nat), (∀ c ∈ buf, q c = true) →
    ok3 p k l = true → ok3 p k (goCollapse q rep buf l) = true
  | [], buf, k, hbuf, _ => by
    simp only [goCollapse]
    refine ok3_allnp _ k ?_
    intro c hc
    exact hdisj c ((mem_collapseEmit hc).elim (hrep c) (hbuf c))
  | c :: rest, buf, k, hbuf, h => by
    by_cases hq : q c = true
    · rw [goCollapse, if_pos hq]
      have hrest : ok3 p 0 rest = true := by
        rw [ok3_cons_not (hdisj c hq)] at h
        exact h
      have hrec := ok3_goCollapse_disj hdisj hrepne hrep rest (buf ++ [c]) 0
        (by
          intro x hx
          rcases List.mem_append.mp hx with hx | hx
          · exact hbuf x hx
          · simp at hx
            simp [hx, hq]) hrest
      obtain ⟨d, ds, hds, hqd⟩ := goCollapse_head_q hrepne hrep rest (buf ++ [c])
        (by simp)
        (by
          intro x hx
          rcases List.mem_append.mp hx with hx | hx
          · exact hbuf x hx
          · simp at hx
            simp [hx, hq])
      rw [hds] at hrec ⊢
      rw [ok3_cons_not (hdisj d hqd)] at hrec ⊢
      exact hrec
    · rw [goCollapse, if_neg hq]
      by_cases hbe : buf = []
      · subst hbe
        have hemit : collapseEmit rep ([] : List Char) = [] := by
          simp [collapseEmit]
        rw [hemit, List.nil_append]
        by_cases hp : p c = true
        · rw [ok3, if_pos hp] at h ⊢
          simp only [Bool.and_eq_true] at h ⊢
          exact ⟨h.1, ok3_goCollapse_disj hdisj hrepne hrep rest [] (k + 1)
            (by simp) h.2⟩
        · rw [ok3_cons_not (by simpa using hp)] at h ⊢
          exact ok3_goCollapse_disj hdisj hrepne hrep rest [] 0 (by simp) h
      · have hemitne : collapseEmit rep buf ≠ [] := by
          unfold collapseEmit
          split
          · exact hrepne
          · exact hbe
        have hemitnp : ∀ x ∈ collapseEmit rep buf, p x = false := fun x hx =>
          hdisj x ((mem_collapseEmit hx).elim (hrep x) (hbuf x))
        refine ok3_allnp_append _ _ k hemitne hemitnp ?_
        by_cases hp : p c = true
        · rw [ok3, if_pos hp] at h ⊢
          simp only [Bool.and_eq_true, decide_eq_true_eq] at h ⊢
          exact ⟨by omega, ok3_goCollapse_disj hdisj hrepne hrep rest [] 1 (by simp)
            (ok3_mono rest 1 (k + 1) (by omega) h.2)⟩
        · rw [ok3_cons_not (by simpa using hp)] at h ⊢
          exact ok3_goCollapse_disj hdisj hrepne hrep rest [] 0 (by simp) h

theorem replaceCRLF_eq_self : ∀ (l : List Char), (∀ c ∈ l, c ≠ '\r') →
    replaceCRLF l = l := by
  intro l
  induction l using replaceCRLF.induct with
  | case1 rest ih =>
    intro h
    exact absurd rfl (h '\r' (by simp))
  | case2 c rest hne ih =>
    intro h
    rw [replaceCRLF.eq_2 c rest hne]
    rw [ih fun x hx => h x (List.mem_cons_of_mem _ hx)]
  | case3 =>
    intro _
    rfl

theorem unifyEol_eq_self (l : List Char) (h : ∀ c ∈ l, c ≠ '\r') :
    unifyEol l = l := by
  rw [unifyEol, replaceCRLF_eq_self l h]
  have hmap : ∀ c ∈ l, crToNl c = c := by
    intro c hc
    unfold crToNl
    rw [if_neg (h c hc)]
  rw [List.map_congr_left hmap]
  simp

theorem mem_unifyEol_ne_cr (l : List Char) : ∀ c ∈ unifyEol l, c ≠ '\r' := by
  intro c hc
  rcases List.mem_map.mp hc with ⟨a, _, rfl⟩
  unfold crToNl
  split
  · decide
  next hne => exact hne

theorem dropWhile_head_false {q : Char → Bool} : ∀ {l : List Char} {c : Char}
    {t : List Char}, l.dropWhile q = c :: t → q c = false
  | [], c, t, h => by simp at h
  | a :: rest, c, t, h => by
    rw [List.dropWhile_cons] at h
    by_cases hq : q a = true
    · rw [if_pos hq] at h
      exact dropWhile_head_false h
    · rw [if_neg hq] at h
      cases h
      simpa using hq

theorem dropWhile_dropWhile {q : Char → Bool} (l : List Char) :
    (l.dropWhile q).dropWhile q = l.dropWhile q := by
  cases hd : l.dropWhile q with
  | nil => rfl
  | cons c t =>
    rw [List.dropWhile_cons, if_neg (by simp [dropWhile_head_false hd])]

theorem rdrop_prefix (q : Char → Bool) (m : List Char) :
    ∃ t, m = ((m.reverse.dropWhile q).reverse) ++ t := by
  refine ⟨(m.reverse.takeWhile q).reverse, ?_⟩
  conv_lhs => rw [← List.reverse_reverse m, ← List.takeWhile_append_dropWhile q m.reverse]
  rw [List.reverse_append]

theorem pyStrip_idem (l : List Char) : pyStrip (pyStrip l) = pyStrip l := by
  unfold pyStrip
  set m := l.dropWhile pyIsSpace with hm
  have hld : ((m.reverse.dropWhile pyIsSpace).reverse).dropWhile pyIsSpace =
      (m.reverse.dropWhile pyIsSpace).reverse := by
    cases hd : (m.reverse.dropWhile pyIsSpace).reverse with
    | nil => rfl
    | cons d ds =>
      obtain ⟨t, ht⟩ := rdrop_prefix pyIsSpace m
      rw [hd] at ht
      have hmd : m.dropWhile pyIsSpace = m := dropWhile_dropWhile l
      have : pyIsSpace d = false := by
        have hmc : m = d :: (ds ++ t) := by rw [ht]; simp
        rw [hmc] at hmd
        rw [List.dropWhile_cons] at hmd
        by_cases hq : pyIsSpace d = true
        · rw [if_pos hq] at hmd
          have hlen := congrArg List.length hmd
          have hle := (List.dropWhile_sublist (l := ds ++ t) pyIsSpace).length_le
          simp only [List.length_append] at hle
          simp only [List.length_cons, List.length_append] at hlen
          omega
        · simpa using hq
      rw [List.dropWhile_cons, if_neg (by simp [this])]
  rw [hld]
  rw [List.reverse_reverse]
  rw [dropWhile_dropWhile]

theorem mem_pyStrip {l : List Char} {c : Char} (h : c ∈ pyStrip l) : c ∈ l := by
  unfold pyStrip at h
  rw [List.mem_reverse] at h
  have h1 := (List.dropWhile_sublist pyIsSpace).mem h
  rw [List.mem_reverse] at h1
  exact (List.dropWhile_sublist pyIsSpace).mem h1

theorem ok3_pyStrip {p : Char → Bool} (l : List Char) (h : ok3 p 0 l = true) :
    ok3 p 0 (pyStrip l) = true := by
  unfold pyStrip
  have h1 : ok3 p 0 (l.dropWhile pyIsSpace) = true := ok3_dropWhile l h
  obtain ⟨t, ht⟩ := rdrop_prefix pyIsSpace (l.dropWhile pyIsSpace)
  rw [ht] at h1
  exact ok3_append_left _ t 0 h1

theorem sp_not_nl : ∀ c : Char, isSpTab c = true → isNl c = false := by
  intro c hc
  simp only [isSpTab, Bool.or_eq_true, decide_eq_true_eq] at hc
  rcases hc with rfl | rfl <;> decide

theorem no_cr_normalize (s : List Char) : ∀ c ∈ normalize_text s, c ≠ '\r' := by
  intro c hc
  have h1 := mem_pyStrip hc
  rcases mem_collapseRuns h1 with h | h
  · rw [show c = ' ' from by simpa using h]
    decide
  rcases mem_collapseRuns h with h | h
  · rw [show c = '\n' from by simpa using h]
    decide
  have hk := (List.mem_filter.mp h).2
  rintro rfl
  revert hk
  decide

theorem all_keep_normalize (s : List Char) :
    ∀ c ∈ normalize_text s, pyKeepChar c = true := by
  intro c hc
  have h1 := mem_pyStrip hc
  rcases mem_collapseRuns h1 with h | h
  · rw [show c = ' ' from by simpa using h]
    decide
  rcases mem_collapseRuns h with h | h
  · rw [show c = '\n' from by simpa using h]
    decide
  exact (List.mem_filter.mp h).2

theorem ok3_nl_normalize (s : List Char) : ok3 isNl 0 (normalize_text s) = true := by
  refine ok3_pyStrip _ ?_
  refine ok3_goCollapse_disj sp_not_nl (by simp) (by decide) _ [] 0 (by simp) ?_
  exact ok3_collapseRuns (by decide) (by simp) _

theorem ok3_sp_normalize (s : List Char) :
    ok3 isSpTab 0 (normalize_text s) = true := by
  refine ok3_pyStrip _ ?_
  exact ok3_collapseRuns (by decide) (by simp) _

/-- C10 as stated is false: `normalize_text` is not idempotent.  On the
input `a`, BEL (0x07), U+0301 the first pass strips the control byte,
leaving the decomposed pair `a` + U+0301; the second pass's NFC step then
composes that newly adjacent pair into U+00E1, changing the text. -/
theorem c10_idempotence_counterexample :
    ¬ normalize_text (normalize_text ['a', '\x07', '́']) =
      normalize_text ['a', '\x07', '́'] := by decide

/-- C10 amended: `normalize_text` is idempotent on every string whose first
normalization pass is already NFC-fixed (the second pass then finds no CR
characters, no strippable controls, no runs of 3+ newlines or 3+
spaces/tabs, and no surrounding whitespace); the idempotence claim fails
only where the control-character strip exposes a new canonical composition
for the second pass's NFC step. -/
theorem c10_idempotent_amended (s : List Char)
    (h : nfc (normalize_text s) = normalize_text s) :
    normalize_text (normalize_text s) = normalize_text s := by
  show pyStrip (collapseRuns isSpTab [' ', ' ']
      (collapseRuns isNl ['\n', '\n']
        (stripControls (unifyEol (nfc (normalize_text s)))))) = normalize_text s
  rw [h]
  rw [unifyEol_eq_self _ (no_cr_normalize s)]
  rw [show stripControls (normalize_text s) = normalize_text s from
    List.filter_eq_self.mpr (all_keep_normalize s)]
  rw [collapseRuns_eq_of_ok3 (normalize_text s) (ok3_nl_normalize s)]
  rw [collapseRuns_eq_of_ok3 (normalize_text s) (ok3_sp_normalize s)]
  exact pyStrip_idem _

/-- Witness for the amended C10 at a concrete input whose first pass is
NFC-fixed. -/
theorem c10_idempotent_amended_witness :
    nfc (normalize_text "a\x07b".toList) = normalize_text "a\x07b".toList ∧
    normalize_text (normalize_text "a\x07b".toList) =
      normalize_text "a\x07b".toList :=
  ⟨by decide, c10_idempotent_amended "a\x07b".toList (by decide)⟩

end CienciaMX
